import Mathlib

/-!
# Verification of the stochastic-chemical-kinetics core

Shallow embedding, in Lean 4, of the two simulation engines of the
repository `stochastic-chemical-kinetics`:

* the state-space indexer and chemical-master-equation (CME) engine of
  `src/cme.hpp` (class `cme` and its model subclasses `ekinetics_cme`,
  `sqssa_cme`), and
* the stochastic simulation algorithm (SSA / Gillespie) engine of
  `src/include/sck/gillespie.hpp` (class `gillespie` and the adapter
  `ssek_gillespie`).

Modelling conventions:

* machine floating-point values (`double`) are modelled by exact rationals
  `ℚ` (and by `ℝ` where the code takes a square root);
* `long long` population numbers are modelled by `ℤ`, and by `ℕ` where the
  code guarantees non-negativity (array indices, in-bounds populations);
* the engine's uniform random draws are passed in explicitly: the SSA
  `step` receives the drawn waiting time `τ` (the code's `-log(r1)/a_tot`)
  and the threshold factor `r2` as arguments;
* fallible adapter code (`throw std::domain_error` / `std::out_of_range`)
  is modelled with `Except`.

The file first gives the definitions translated from the source, then the
theorems settling the claims, each preceded by a doc comment naming the
claim.
-/

namespace SCK

/-! ## State-space indexer (`src/cme.hpp`, `cme::get_index`, `cme::get_pop`)

`get_index` mirrors the source loop
`for i in 0..N_s-1: index = index*n_max[i] + y[i]` (most-significant
species first).  `get_pop` mirrors
`for i = N_s-1 downto 0: y[i] = index % n_max[i]; index /= n_max[i]`,
which we express by processing the reversed list of bounds
(least-significant species first) and reversing the result. -/

/-- `cme::get_index` from `src/cme.hpp`: fold `index = index*n_max[i] + y[i]`
over the species, front (most significant) first. -/
def get_index (nmax y : List ℕ) : ℕ :=
  (List.zip nmax y).foldl (fun acc my => acc * my.1 + my.2) 0

/-- The loop body of `cme::get_pop`, processing bounds least-significant
first: `y = index % m`, then continue with `index / m`. -/
def popAux : List ℕ → ℕ → List ℕ
  | [], _ => []
  | m :: ms, index => index % m :: popAux ms (index / m)

/-- `cme::get_pop` from `src/cme.hpp`: extract digits from the
least-significant species (the last one) upwards. -/
def get_pop (nmax : List ℕ) (index : ℕ) : List ℕ :=
  (popAux nmax.reverse index).reverse

/-- Little-endian mixed-radix value of a list of (bound, digit) pairs;
the proof-side normal form of `get_index`. -/
def indexLE : List (ℕ × ℕ) → ℕ
  | [] => 0
  | (m, y) :: rest => y + m * indexLE rest

theorem foldl_index_eq (l : List (ℕ × ℕ)) (acc : ℕ) :
    l.foldl (fun a my => a * my.1 + my.2) acc
      = acc * (l.map Prod.fst).prod + indexLE l.reverse := by
  induction l generalizing acc with
  | nil => simp [indexLE]
  | cons hd tl ih =>
    obtain ⟨m, y⟩ := hd
    have happ : ∀ (l' : List (ℕ × ℕ)),
        indexLE (l' ++ [(m, y)]) = indexLE l' + (l'.map Prod.fst).prod * y := by
      intro l'
      induction l' with
      | nil => simp [indexLE]
      | cons hd' tl' ih' =>
        obtain ⟨m', y'⟩ := hd'
        simp [indexLE, ih']
        ring
    simp only [List.foldl_cons, List.map_cons, List.prod_cons, List.reverse_cons]
    rw [ih, happ, List.map_reverse, List.prod_reverse]
    ring

theorem get_index_eq_indexLE (nmax y : List ℕ) :
    get_index nmax y = indexLE (List.zip nmax y).reverse := by
  simpa using foldl_index_eq (List.zip nmax y) 0

theorem indexLE_lt_prod (l : List (ℕ × ℕ)) (h : ∀ my ∈ l, my.2 < my.1) :
    indexLE l < (l.map Prod.fst).prod := by
  induction l with
  | nil => simp [indexLE]
  | cons hd tl ih =>
    obtain ⟨m, y⟩ := hd
    have hy : y < m := h (m, y) (List.mem_cons_self _ _)
    have htl : indexLE tl < (tl.map Prod.fst).prod :=
      ih fun my hmy => h my (List.mem_cons_of_mem _ hmy)
    simp only [indexLE, List.map_cons, List.prod_cons]
    calc y + m * indexLE tl < m + m * indexLE tl := by omega
    _ = m * (indexLE tl + 1) := by ring
    _ ≤ m * (tl.map Prod.fst).prod := Nat.mul_le_mul_left m htl

theorem popAux_length (ms : List ℕ) : ∀ i, (popAux ms i).length = ms.length := by
  induction ms with
  | nil => intro i; rfl
  | cons m ms ih => intro i; simp [popAux, ih]

theorem popAux_indexLE :
    ∀ (ms ys : List ℕ), ms.length = ys.length →
      (∀ p ∈ List.zip ms ys, p.2 < p.1) →
      popAux ms (indexLE (List.zip ms ys)) = ys := by
  intro ms
  induction ms with
  | nil =>
    intro ys hlen _
    simp only [List.length_nil] at hlen
    simp [List.eq_nil_of_length_eq_zero hlen.symm, popAux]
  | cons m ms ih =>
    intro ys hlen h
    cases ys with
    | nil => simp at hlen
    | cons y ys =>
      have hy : y < m := h (m, y) (by simp [List.zip_cons_cons])
      have hm : 0 < m := by omega
      have key : popAux ms (indexLE (List.zip ms ys)) = ys :=
        ih ys (by simpa using hlen) (fun p hp => h p (List.mem_cons_of_mem _ hp))
      simp only [List.zip_cons_cons, indexLE, popAux, List.cons.injEq]
      refine ⟨?_, ?_⟩
      · show (y + m * indexLE (List.zip ms ys)) % m = y
        rw [Nat.add_mul_mod_self_left, Nat.mod_eq_of_lt hy]
      · show popAux ms ((y + m * indexLE (List.zip ms ys)) / m) = ys
        rw [Nat.add_mul_div_left _ _ hm, Nat.div_eq_of_lt hy, Nat.zero_add]
        exact key

theorem indexLE_popAux :
    ∀ (ms : List ℕ) (i : ℕ), i < ms.prod →
      indexLE (List.zip ms (popAux ms i)) = i := by
  intro ms
  induction ms with
  | nil =>
    intro i hi
    simp only [List.prod_nil, Nat.lt_one_iff] at hi
    simp [popAux, indexLE, hi]
  | cons m ms ih =>
    intro i hi
    have hm : 0 < m := by
      rcases Nat.eq_zero_or_pos m with h0 | h0
      · simp [h0] at hi
      · exact h0
    have hdiv : i / m < ms.prod := by
      rw [Nat.div_lt_iff_lt_mul hm]
      calc i < (m :: ms).prod := hi
      _ = ms.prod * m := by simp [List.prod_cons]; ring
    have key : indexLE (List.zip ms (popAux ms (i / m))) = i / m := ih (i / m) hdiv
    simp only [popAux, List.zip_cons_cons, indexLE]
    show i % m + m * indexLE (List.zip ms (popAux ms (i / m))) = i
    rw [key, Nat.mod_add_div]

theorem zip_reverse :
    ∀ (a b : List ℕ), a.length = b.length →
      (List.zip a b).reverse = List.zip a.reverse b.reverse := by
  intro a
  induction a with
  | nil => intro b _; simp
  | cons x xs ih =>
    intro b hlen
    cases b with
    | nil => simp at hlen
    | cons y ys =>
      have hxy : xs.length = ys.length := by simpa using hlen
      simp only [List.zip_cons_cons, List.reverse_cons]
      rw [ih ys hxy, List.zip_append (by simpa using hxy)]
      simp

theorem popAux_pairs :
    ∀ (ms : List ℕ), (∀ m ∈ ms, 0 < m) →
      ∀ (i : ℕ), ∀ p ∈ List.zip (popAux ms i) ms, p.1 < p.2 := by
  intro ms
  induction ms with
  | nil => intro _ i p hp; simp [popAux] at hp
  | cons m ms ih =>
    intro hpos i p hp
    simp only [popAux, List.zip_cons_cons, List.mem_cons] at hp
    rcases hp with hp | hp
    · subst hp
      exact Nat.mod_lt _ (hpos m (List.mem_cons_self _ _))
    · exact ih (fun m' hm' => hpos m' (List.mem_cons_of_mem _ hm')) (i / m) p hp

/-- **C2.** The state-space indexing of `src/cme.hpp` is a bijection over the
declared lattice: for every population vector `y` with `y_i < n_max_i`
componentwise, `get_index y` lies in `[0, ∏ n_max_i)` and
`get_pop (get_index y) = y`; and for every flat index `i < ∏ n_max_i`,
`get_index (get_pop i) = i`.  (The in-bounds vector `y` is given as a list of
naturals together with the pointwise bound over `zip nmax y`, which encodes
`0 ≤ y_i < n_max_i`; the fold in `get_index` is mixed-radix with the first,
most-significant species outermost.) -/
theorem claim_C2_indexer_bijection (nmax y : List ℕ)
    (hlen : nmax.length = y.length)
    (hbound : ∀ p ∈ List.zip nmax y, p.2 < p.1) :
    get_index nmax y < nmax.prod ∧
    get_pop nmax (get_index nmax y) = y ∧
    ∀ i < nmax.prod, get_index nmax (get_pop nmax i) = i := by
  refine ⟨?_, ?_, ?_⟩
  · rw [get_index_eq_indexLE]
    calc indexLE (List.zip nmax y).reverse
        < ((List.zip nmax y).reverse.map Prod.fst).prod :=
          indexLE_lt_prod _ (fun p hp => hbound p (List.mem_reverse.mp hp))
    _ = ((List.zip nmax y).map Prod.fst).prod := by
          rw [List.map_reverse, List.prod_reverse]
    _ = nmax.prod := by rw [List.map_fst_zip _ _ (le_of_eq hlen)]
  · rw [get_index_eq_indexLE, zip_reverse nmax y hlen]
    unfold get_pop
    rw [popAux_indexLE nmax.reverse y.reverse (by simp [hlen])
      (fun p hp => by
        rw [← zip_reverse nmax y hlen] at hp
        exact hbound p (List.mem_reverse.mp hp)),
      List.reverse_reverse]
  · intro i hi
    unfold get_pop
    rw [get_index_eq_indexLE,
      zip_reverse nmax ((popAux nmax.reverse i).reverse)
        (by simp [popAux_length]),
      List.reverse_reverse]
    exact indexLE_popAux nmax.reverse i (by rwa [List.prod_reverse])

/-- Witness for C2 at the concrete lattice `n_max = [2, 3]`, `y = [1, 2]`. -/
theorem claim_C2_witness :
    ([2, 3] : List ℕ).length = ([1, 2] : List ℕ).length ∧
    (∀ p ∈ List.zip [2, 3] [1, 2], p.2 < p.1) ∧
    (get_index [2, 3] [1, 2] < ([2, 3] : List ℕ).prod ∧
     get_pop [2, 3] (get_index [2, 3] [1, 2]) = [1, 2] ∧
     ∀ i < ([2, 3] : List ℕ).prod, get_index [2, 3] (get_pop [2, 3] i) = i) :=
  ⟨by decide, by decide,
    claim_C2_indexer_bijection [2, 3] [1, 2] (by decide) (by decide)⟩

/-- **C9.** `cme::get_pop` is total and always produces an in-bounds vector:
for every index, including indices at or beyond `∏ n_max_i`, the result has
one component per species and every component is strictly below the
per-species bound (it is reduced modulo that bound); the indexer itself never
rejects an out-of-range index. -/
theorem claim_C9_get_pop_total_in_bounds (nmax : List ℕ)
    (hpos : ∀ m ∈ nmax, 0 < m) (index : ℕ) :
    (get_pop nmax index).length = nmax.length ∧
    ∀ p ∈ List.zip (get_pop nmax index) nmax, p.1 < p.2 := by
  constructor
  · simp [get_pop, popAux_length]
  · intro p hp
    have hlen : (popAux nmax.reverse index).length = nmax.reverse.length :=
      popAux_length _ _
    have hzip : List.zip (get_pop nmax index) nmax
        = (List.zip (popAux nmax.reverse index) nmax.reverse).reverse := by
      rw [zip_reverse _ _ hlen, List.reverse_reverse]
      rfl
    rw [hzip] at hp
    exact popAux_pairs nmax.reverse
      (fun m hm => hpos m (List.mem_reverse.mp hm)) index p
      (List.mem_reverse.mp hp)

/-- Witness for C9 at `n_max = [2, 3]` and the out-of-range index `17 ≥ 6`:
`get_pop` still returns a two-component, in-bounds vector. -/
theorem claim_C9_witness :
    (∀ m ∈ ([2, 3] : List ℕ), 0 < m) ∧
    ((get_pop [2, 3] 17).length = ([2, 3] : List ℕ).length ∧
     ∀ p ∈ List.zip (get_pop [2, 3] 17) [2, 3], p.1 < p.2) :=
  ⟨by decide, claim_C9_get_pop_total_in_bounds [2, 3] (by decide) 17⟩

/-! ## SSA / Gillespie engine (`src/include/sck/gillespie.hpp`, class `gillespie`)

The engine state is the population vector `x` (`std::valarray<long long>`,
modelled as `List ℤ`) and the clock `t`.  The two uniform draws of
`gillespie::step` enter the embedding through the drawn waiting time
`tau` (the code's `-log(r1)/a_tot`, strictly positive for `r1 ∈ (0,1)`)
and the uniform variate `r2`.  The virtual propensity member function
`a(i)`, which reads the current `x`, is modelled by an abstract total
function `a : List ℤ → ℕ → ℚ` of the state and the channel index. -/

structure GilState where
  x : List ℤ
  t : ℚ
deriving DecidableEq

/-- `gillespie::total_propensity`: sum of all propensities at the current
population numbers. -/
def total_propensity (Nr : ℕ) (a : List ℤ → ℕ → ℚ) (x : List ℤ) : ℚ :=
  ∑ i in Finset.range Nr, a x i

/-- The channel-selection loop of `gillespie::step`:
`for (j = 0; j < N_r-1; ++j) { a_accum += a(j); if (a_accum > r2*a_tot) break; }`.
The fuel counts the remaining iterations (`N_r - 1` at the start), `j` is the
loop counter and `acc` the running accumulator `a_accum`. -/
def selLoop (a1 : ℕ → ℚ) (thr : ℚ) : ℕ → ℕ → ℚ → ℕ
  | 0, j, _ => j
  | k + 1, j, acc =>
    let acc2 := acc + a1 j
    if thr < acc2 then j else selLoop a1 thr k (j + 1) acc2

/-- The channel selected by `gillespie::step` given the per-channel
propensities `a1` at the current state and the threshold `thr = r2*a_tot`. -/
def select_channel (Nr : ℕ) (a1 : ℕ → ℚ) (thr : ℚ) : ℕ :=
  selLoop a1 thr (Nr - 1) 0 0

/-- `gillespie::step(t_final)` from `src/include/sck/gillespie.hpp`:
compute `a_tot`; if zero return `false`; otherwise, with the drawn waiting
time `tau`, reject if `t + tau > t_final && t_final > 0`; otherwise select
the channel, advance the clock by `tau` and apply the stoichiometric
vector `nu[j]`. -/
def gstep (Nr : ℕ) (a : List ℤ → ℕ → ℚ) (nu : ℕ → List ℤ) (s : GilState)
    (tau r2 tFinal : ℚ) : Bool × GilState :=
  let aTot := total_propensity Nr a s.x
  if aTot = 0 then (false, s)
  else if tFinal < s.t + tau ∧ 0 < tFinal then (false, s)
  else
    let j := select_channel Nr (a s.x) (r2 * aTot)
    (true, ⟨List.zipWith (· + ·) s.x (nu j), s.t + tau⟩)

/-- `gillespie::simulate(n, t_final)`: repeat `step` while
`i < n && (t <= t_final || t_final <= 0)`, breaking at the first `false`
return.  The list `draws` supplies one `(tau, r2)` pair per potential
iteration (so `n = draws.length`). -/
def gsimulate (Nr : ℕ) (a : List ℤ → ℕ → ℚ) (nu : ℕ → List ℤ) (tFinal : ℚ) :
    List (ℚ × ℚ) → GilState → GilState
  | [], s => s
  | (tau, r2) :: rest, s =>
    if s.t ≤ tFinal ∨ tFinal ≤ 0 then
      match gstep Nr a nu s tau r2 tFinal with
      | (true, s2) => gsimulate Nr a nu tFinal rest s2
      | (false, s2) => s2
    else s

/-- An arbitrary sequence of direct `gillespie::step` calls, each with its
own draw `(tau, r2)` and deadline `t_final`. -/
def stepSeq (Nr : ℕ) (a : List ℤ → ℕ → ℚ) (nu : ℕ → List ℤ) :
    List (ℚ × ℚ × ℚ) → GilState → GilState
  | [], s => s
  | (tau, r2, tFinal) :: rest, s =>
      stepSeq Nr a nu rest (gstep Nr a nu s tau r2 tFinal).2

/-- The prefix sum `a(0) + ... + a(j)` of the propensities. -/
def prefixSum (a1 : ℕ → ℚ) (j : ℕ) : ℚ := ∑ k in Finset.range (j + 1), a1 k

theorem selLoop_spec (a1 : ℕ → ℚ) (thr : ℚ) :
    ∀ (k j : ℕ),
      j ≤ selLoop a1 thr k j (∑ i in Finset.range j, a1 i) ∧
      selLoop a1 thr k j (∑ i in Finset.range j, a1 i) ≤ j + k ∧
      (∀ m, j ≤ m → m < selLoop a1 thr k j (∑ i in Finset.range j, a1 i) →
        ∑ i in Finset.range (m + 1), a1 i ≤ thr) ∧
      (selLoop a1 thr k j (∑ i in Finset.range j, a1 i) < j + k →
        thr < ∑ i in Finset.range
          (selLoop a1 thr k j (∑ i in Finset.range j, a1 i) + 1), a1 i) := by
  intro k
  induction k with
  | zero =>
    intro j
    simp only [selLoop, Nat.add_zero]
    exact ⟨le_refl j, le_refl j, fun m h1 h2 => absurd (h1.trans_lt h2) (lt_irrefl j),
      fun h => absurd h (lt_irrefl j)⟩
  | succ k ih =>
    intro j
    have hacc : (∑ i in Finset.range j, a1 i) + a1 j
        = ∑ i in Finset.range (j + 1), a1 i := (Finset.sum_range_succ a1 j).symm
    simp only [selLoop]
    by_cases hcase : thr < (∑ i in Finset.range j, a1 i) + a1 j
    · rw [if_pos hcase]
      refine ⟨le_refl j, Nat.le_add_right j (k + 1),
        fun m h1 h2 => absurd (h1.trans_lt h2) (lt_irrefl j), fun _ => ?_⟩
      rw [← hacc]; exact hcase
    · rw [if_neg hcase, hacc]
      obtain ⟨ih1, ih2, ih3, ih4⟩ := ih (j + 1)
      refine ⟨le_trans (Nat.le_succ j) ih1, by omega, ?_, by
        intro h; exact ih4 (by omega)⟩
      intro m h1 h2
      rcases Nat.eq_or_lt_of_le h1 with rfl | h1'
      · rw [← hacc]; exact le_of_not_lt hcase
      · exact ih3 m h1' h2

/-- **C3.** In every accepted SSA step (`a_tot > 0`, deadline not
exceeded), the step fires, the population is updated by the stoichiometric
vector of the selected channel `J`, and `J` is the smallest index whose
propensity prefix sum `a(0)+...+a(J)` strictly exceeds `r2*a_tot`: no
earlier index qualifies, `J` is in range, `J` itself qualifies unless it is
the implicit last channel `N_r - 1`, and if no prefix sum over the first
`N_r - 1` channels qualifies then the last channel is selected. -/
theorem claim_C3_channel_selection (Nr : ℕ) (a : List ℤ → ℕ → ℚ)
    (nu : ℕ → List ℤ) (s : GilState) (tau r2 tFinal : ℚ)
    (hNr : 0 < Nr)
    (ha : 0 < total_propensity Nr a s.x)
    (hdl : ¬(tFinal < s.t + tau ∧ 0 < tFinal)) :
    (gstep Nr a nu s tau r2 tFinal).1 = true ∧
    (gstep Nr a nu s tau r2 tFinal).2.x
      = List.zipWith (· + ·) s.x
          (nu (select_channel Nr (a s.x) (r2 * total_propensity Nr a s.x))) ∧
    select_channel Nr (a s.x) (r2 * total_propensity Nr a s.x) < Nr ∧
    (∀ m < select_channel Nr (a s.x) (r2 * total_propensity Nr a s.x),
      prefixSum (a s.x) m ≤ r2 * total_propensity Nr a s.x) ∧
    (select_channel Nr (a s.x) (r2 * total_propensity Nr a s.x) < Nr - 1 →
      r2 * total_propensity Nr a s.x
        < prefixSum (a s.x)
            (select_channel Nr (a s.x) (r2 * total_propensity Nr a s.x))) ∧
    ((∀ m < Nr - 1, prefixSum (a s.x) m ≤ r2 * total_propensity Nr a s.x) →
      select_channel Nr (a s.x) (r2 * total_propensity Nr a s.x) = Nr - 1) := by
  have hne : total_propensity Nr a s.x ≠ 0 := ne_of_gt ha
  have hspec := selLoop_spec (a s.x) (r2 * total_propensity Nr a s.x) (Nr - 1) 0
  simp only [Finset.range_zero, Finset.sum_empty, Nat.zero_add] at hspec
  obtain ⟨h1, h2, h3, h4⟩ := hspec
  have hstep : gstep Nr a nu s tau r2 tFinal
      = (true, ⟨List.zipWith (· + ·) s.x
          (nu (select_channel Nr (a s.x) (r2 * total_propensity Nr a s.x))),
          s.t + tau⟩) := by
    unfold gstep
    rw [if_neg hne, if_neg hdl]
  refine ⟨by rw [hstep], by rw [hstep], by
      unfold select_channel; omega, ?_, ?_, ?_⟩
  · intro m hm
    exact h3 m (Nat.zero_le m) hm
  · intro hlt
    exact h4 hlt
  · intro hall
    by_contra hne'
    have hlt : select_channel Nr (a s.x) (r2 * total_propensity Nr a s.x)
        < Nr - 1 := by
      unfold select_channel at hne' ⊢; omega
    exact absurd (hall _ hlt) (not_le.mpr (h4 hlt))

/-- Concrete system used in the SSA witnesses: two channels with constant
propensities 1 and 2, stoichiometric vectors `(+1)` and `(-1)` on one
species. -/
def wA : List ℤ → ℕ → ℚ := fun _ i => if i = 0 then 1 else 2

def wNu : ℕ → List ℤ := fun j => if j = 0 then [1] else [-1]

/-- Witness for C3: threshold `r2*a_tot = 3/2` exceeds the first prefix
sum `1`, so channel 1 fires. -/
theorem claim_C3_witness :
    (gstep 2 wA wNu ⟨[0], 0⟩ 1 (1/2) 0).1 = true ∧
    (gstep 2 wA wNu ⟨[0], 0⟩ 1 (1/2) 0).2.x
      = List.zipWith (· + ·) [0]
          (wNu (select_channel 2 (wA [0]) ((1/2) * total_propensity 2 wA [0]))) ∧
    select_channel 2 (wA [0]) ((1/2) * total_propensity 2 wA [0]) < 2 ∧
    (∀ m < select_channel 2 (wA [0]) ((1/2) * total_propensity 2 wA [0]),
      prefixSum (wA [0]) m ≤ (1/2) * total_propensity 2 wA [0]) ∧
    (select_channel 2 (wA [0]) ((1/2) * total_propensity 2 wA [0]) < 2 - 1 →
      (1/2) * total_propensity 2 wA [0]
        < prefixSum (wA [0])
            (select_channel 2 (wA [0]) ((1/2) * total_propensity 2 wA [0]))) ∧
    ((∀ m < 2 - 1, prefixSum (wA [0]) m ≤ (1/2) * total_propensity 2 wA [0]) →
      select_channel 2 (wA [0]) ((1/2) * total_propensity 2 wA [0]) = 2 - 1) :=
  claim_C3_channel_selection 2 wA wNu ⟨[0], 0⟩ 1 (1/2) 0 (by decide)
    (by norm_num [total_propensity, Finset.sum_range_succ, wA])
    (by norm_num)

/-- **C4.** For every SSA engine state and deadline such that the drawn
waiting time `tau` satisfies `t + tau > deadline` with `deadline > 0`,
`step(deadline)` returns `false` and leaves the population vector `x` and
the clock `t` exactly unchanged: the whole state is returned untouched. -/
theorem claim_C4_deadline_rejection (Nr : ℕ) (a : List ℤ → ℕ → ℚ)
    (nu : ℕ → List ℤ) (s : GilState) (tau r2 tFinal : ℚ)
    (hpos : 0 < tFinal) (hex : tFinal < s.t + tau) :
    gstep Nr a nu s tau r2 tFinal = (false, s) := by
  simp only [gstep]
  by_cases h0 : total_propensity Nr a s.x = 0
  · rw [if_pos h0]
  · rw [if_neg h0, if_pos ⟨hex, hpos⟩]

/-- Witness for C4: waiting time 5 from `t = 0` overshoots the deadline 1,
so the step is rejected with the state unchanged. -/
theorem claim_C4_witness :
    (0 : ℚ) < 1 ∧ (1 : ℚ) < (⟨[0], 0⟩ : GilState).t + 5 ∧
    gstep 2 wA wNu ⟨[0], 0⟩ 5 (1/2) 1 = (false, ⟨[0], 0⟩) :=
  ⟨by norm_num, by norm_num,
    claim_C4_deadline_rejection 2 wA wNu ⟨[0], 0⟩ 5 (1/2) 1 (by norm_num)
      (by norm_num)⟩

/-- **C5.** If the total propensity at the current state is zero, `step`
returns `false` with the state unchanged, a subsequent call behaves
identically (idempotent no-op), and `simulate` stops at the first such
`false` return, leaving the state unchanged for any draw list. -/
theorem claim_C5_zero_propensity_noop (Nr : ℕ) (a : List ℤ → ℕ → ℚ)
    (nu : ℕ → List ℤ) (s : GilState)
    (h : total_propensity Nr a s.x = 0) :
    (∀ tau r2 tFinal, gstep Nr a nu s tau r2 tFinal = (false, s)) ∧
    (∀ tau r2 tFinal tau2 r22 tF2,
      gstep Nr a nu (gstep Nr a nu s tau r2 tFinal).2 tau2 r22 tF2
        = (false, s)) ∧
    (∀ (draws : List (ℚ × ℚ)) (tFinal : ℚ),
      gsimulate Nr a nu tFinal draws s = s) := by
  have hstep : ∀ tau r2 tFinal, gstep Nr a nu s tau r2 tFinal = (false, s) := by
    intro tau r2 tFinal
    simp only [gstep]
    rw [if_pos h]
  refine ⟨hstep, ?_, ?_⟩
  · intro tau r2 tFinal tau2 r22 tF2
    rw [hstep tau r2 tFinal]
    exact hstep tau2 r22 tF2
  · intro draws tFinal
    cases draws with
    | nil => rfl
    | cons d rest =>
      obtain ⟨tau, r2⟩ := d
      simp only [gsimulate]
      rw [hstep tau r2 tFinal]
      by_cases hc : s.t ≤ tFinal ∨ tFinal ≤ 0
      · rw [if_pos hc]
      · rw [if_neg hc]

/-- Zero propensity function, used in the C5 witness. -/
def wZ : List ℤ → ℕ → ℚ := fun _ _ => 0

/-- Witness for C5 at a concrete absorbed state. -/
theorem claim_C5_witness :
    total_propensity 2 wZ [3] = 0 ∧
    gstep 2 wZ wNu ⟨[3], 7⟩ 1 (1/2) 0 = (false, ⟨[3], 7⟩) ∧
    gstep 2 wZ wNu (gstep 2 wZ wNu ⟨[3], 7⟩ 1 (1/2) 0).2 2 (1/3) 5
      = (false, ⟨[3], 7⟩) ∧
    gsimulate 2 wZ wNu 0 [(1, 1/2), (2, 1/3)] ⟨[3], 7⟩ = ⟨[3], 7⟩ := by
  have h : total_propensity 2 wZ ([3] : List ℤ) = 0 := by
    simp [total_propensity, wZ]
  exact ⟨h, (claim_C5_zero_propensity_noop 2 wZ wNu ⟨[3], 7⟩ h).1 1 (1/2) 0,
    (claim_C5_zero_propensity_noop 2 wZ wNu ⟨[3], 7⟩ h).2.1 1 (1/2) 0 2 (1/3) 5,
    (claim_C5_zero_propensity_noop 2 wZ wNu ⟨[3], 7⟩ h).2.2
      [(1, 1/2), (2, 1/3)] 0⟩

/-- **C7.** The SSA clock never decreases: a single `step` with a positive
drawn waiting time leaves `t` unchanged or increases it, it strictly
increases `t` whenever it returns `true`, and across any sequence of `step`
calls with positive waiting times `t` is monotonically non-decreasing. -/
theorem claim_C7_clock_monotone (Nr : ℕ) (a : List ℤ → ℕ → ℚ)
    (nu : ℕ → List ℤ) :
    (∀ (s : GilState) (tau r2 tFinal : ℚ), 0 < tau →
      s.t ≤ (gstep Nr a nu s tau r2 tFinal).2.t ∧
      ((gstep Nr a nu s tau r2 tFinal).1 = true →
        s.t < (gstep Nr a nu s tau r2 tFinal).2.t)) ∧
    (∀ (draws : List (ℚ × ℚ × ℚ)) (s : GilState),
      (∀ d ∈ draws, 0 < d.1) →
      s.t ≤ (stepSeq Nr a nu draws s).t) := by
  have hsingle : ∀ (s : GilState) (tau r2 tFinal : ℚ), 0 < tau →
      s.t ≤ (gstep Nr a nu s tau r2 tFinal).2.t ∧
      ((gstep Nr a nu s tau r2 tFinal).1 = true →
        s.t < (gstep Nr a nu s tau r2 tFinal).2.t) := by
    intro s tau r2 tFinal htau
    simp only [gstep]
    by_cases h0 : total_propensity Nr a s.x = 0
    · rw [if_pos h0]
      exact ⟨le_refl _, fun hf => absurd hf (by simp)⟩
    · rw [if_neg h0]
      by_cases hdl : tFinal < s.t + tau ∧ 0 < tFinal
      · rw [if_pos hdl]
        exact ⟨le_refl _, fun hf => absurd hf (by simp)⟩
      · rw [if_neg hdl]
        exact ⟨by show s.t ≤ s.t + tau; linarith,
          fun _ => by show s.t < s.t + tau; linarith⟩
  refine ⟨hsingle, ?_⟩
  intro draws
  induction draws with
  | nil => intro s _; exact le_refl _
  | cons d rest ih =>
    intro s hd
    obtain ⟨tau, r2, tFinal⟩ := d
    have h1 : s.t ≤ (gstep Nr a nu s tau r2 tFinal).2.t :=
      (hsingle s tau r2 tFinal (hd (tau, r2, tFinal) (List.mem_cons_self _ _))).1
    have h2 := ih (gstep Nr a nu s tau r2 tFinal).2
      (fun d' hd' => hd d' (List.mem_cons_of_mem _ hd'))
    simp only [stepSeq]
    exact le_trans h1 h2

/-- Witness for C7 at a concrete two-step run. -/
theorem claim_C7_witness :
    ((⟨[0], 0⟩ : GilState).t ≤ (gstep 2 wA wNu ⟨[0], 0⟩ 1 (1/2) 0).2.t ∧
     ((gstep 2 wA wNu ⟨[0], 0⟩ 1 (1/2) 0).1 = true →
       (⟨[0], 0⟩ : GilState).t < (gstep 2 wA wNu ⟨[0], 0⟩ 1 (1/2) 0).2.t)) ∧
    (⟨[0], 0⟩ : GilState).t
      ≤ (stepSeq 2 wA wNu [(1, 1/2, 0), (2, 1/3, 0)] ⟨[0], 0⟩).t :=
  ⟨(claim_C7_clock_monotone 2 wA wNu).1 ⟨[0], 0⟩ 1 (1/2) 0 (by norm_num),
   (claim_C7_clock_monotone 2 wA wNu).2 [(1, 1/2, 0), (2, 1/3, 0)] ⟨[0], 0⟩
     (by
       intro d hd
       simp only [List.mem_cons, List.not_mem_nil, or_false] at hd
       rcases hd with rfl | rfl <;> norm_num)⟩

/-! ## CME engine (`src/cme.hpp`, class `cme`)

The probability vector `p` (a `std::valarray<T>` of size `∏ n_max_i`) is
modelled as a function `ℕ → ℚ` read on `Finset.range (∏ n_max_i)`.  The
sweep of the derivative lambda enumerates the lattice states in flat-index
order, maintaining the population vector `x` as an odometer; at flat index
`pop_i` this odometer equals `get_pop pop_i`, which for two species with
`n_max = {ET+1, ST+1}` and `pop_i < (ET+1)*(ST+1)` is the pair
`(pop_i / (ST+1), pop_i % (ST+1))`. -/

structure CmeSt where
  p : ℕ → ℚ
  t : ℚ

/-- Modelled from the spec: the Runge-Kutta integrator strategies of
`runge_kutta.hpp` are not among the sources (only callers of them are);
§4.3 of the spec fixes their contract
`step(state_vector, dt, derivative_fn) -> next_state_vector`, satisfied by
any explicit Runge-Kutta method "from simple Euler" up.  We model the Euler
member of that family: `next = p + dt · f(p)`, a single derivative
evaluation, performed at `p`. -/
def eulerInteg (D : (ℕ → ℚ) → ℕ → ℚ) (p : ℕ → ℚ) (dt : ℚ) : ℕ → ℚ :=
  fun i => p i + dt * D p i

/-- `cme::step(integ, dt)` from `src/cme.hpp` (both revisions, lines
113-149 and 530-568), with the spec-modelled Euler strategy supplied as
`integ`.  The derivative lambda `f` writes into the member field `dp` and
returns a reference to it, so after `integ.step(p, dt, f)` (whose single
`f`-evaluation is at `p`) the member `dp` holds `D p`; the code then
executes `p += dp * dt; t += dt;`. -/
def cmeStep (D : (ℕ → ℚ) → ℕ → ℚ) (s : CmeSt) (dt : ℚ) : CmeSt :=
  let dp := D s.p
  let pI := eulerInteg D s.p dt
  ⟨fun i => pI i + dp i * dt, s.t + dt⟩

/-- The probability vector built by the `cme` constructor:
`p.resize(n_elems(), 0); p[0] = 1;`. -/
def cmeInitP : ℕ → ℚ := fun i => if i = 0 then 1 else 0

/-- `sqssa_cme::a` from `src/cme.hpp`: the propensity of the single sQSSA
reaction channel, `kcat*(ET*S) / (S + kM)` with `S = ST - y[0]` computed in
integer arithmetic before the floating division. -/
def sqssaA (kM kcat : ℚ) (ET ST : ℤ) (y : ℤ) : ℚ :=
  kcat * ((ET * (ST - y) : ℤ) : ℚ) / (((ST - y : ℤ) : ℚ) + kM)

/-- The CME derivative vector of the one-species sQSSA model
(`N_s = N_r = 1`, `nu[0] = {1}`, `n_max = {ST+1}`), as computed by the
derivative lambda of `cme::step`: gain `a(y-1)·p[y-1]` guarded by the
`out_of_bounds` test `y-1 < 0 ∨ y-1 > ST`, and unconditional loss
`a(y)·p[y]`. -/
def sqssaDeriv (kM kcat : ℚ) (ET ST : ℤ) (pr : ℕ → ℚ) (i : ℕ) : ℚ :=
  (if (i : ℤ) - 1 < 0 ∨ ST < (i : ℤ) - 1 then 0
   else sqssaA kM kcat ET ST ((i : ℤ) - 1) * pr (i - 1))
  - sqssaA kM kcat ET ST (i : ℤ) * pr i

/-- **C1** (code bug).  `cme::step` computes the claimed gain/loss
derivative vector and advances `t` by exactly `dt`, but the resulting
probability vector is *not* the integrator's output for `(p, dt, f)`: after
`integ.step(p, dt, f)` the code additionally executes `p += dp * dt`, where
`dp` still holds the integrator's last derivative evaluation.  Evaluated on
the sQSSA model with `kM = kcat = 1`, `ET = ST = 1`, the constructor state
`p = (1, 0)`, the spec-modelled Euler integrator and `dt = 1`: the
integrator output is `(1/2, 1/2)`, yet `step` leaves `p = (0, 1)` (the
Euler update applied twice), while `t` does advance to `dt`. -/
theorem claim_C1_step_adds_extra_euler_update :
    (cmeStep (sqssaDeriv 1 1 1 1) ⟨cmeInitP, 0⟩ 1).t = 0 + 1 ∧
    eulerInteg (sqssaDeriv 1 1 1 1) cmeInitP 1 0 = 1/2 ∧
    eulerInteg (sqssaDeriv 1 1 1 1) cmeInitP 1 1 = 1/2 ∧
    (cmeStep (sqssaDeriv 1 1 1 1) ⟨cmeInitP, 0⟩ 1).p 0 = 0 ∧
    (cmeStep (sqssaDeriv 1 1 1 1) ⟨cmeInitP, 0⟩ 1).p 1 = 1 ∧
    (cmeStep (sqssaDeriv 1 1 1 1) ⟨cmeInitP, 0⟩ 1).p 0
      ≠ eulerInteg (sqssaDeriv 1 1 1 1) cmeInitP 1 0 := by
  norm_num [cmeStep, eulerInteg, sqssaDeriv, sqssaA, cmeInitP]

/-! ## CME applied to enzyme kinetics (`src/cme.hpp`, class `ekinetics_cme`)

Two species `(C, P)`, three channels, lattice `n_max = {ET+1, ST+1}`.
Channel indices are naturals; the `switch` default (`throw`) is unreachable
for indices below `N_r = 3`, which is all the derivative sweep uses (the
fallible adapter is modelled in full for claim C10 further below). -/

/-- `ekinetics_cme::a` from `src/cme.hpp` on the declared channels: the
conservation check `y[C] + y[P] > ST` returns 0 before the `switch`; then
`kappa_f*(ET-C)*(ST-C-P)`, `kappa_b*C`, `kappa_cat*C`. -/
def ekA (kf kb kcat : ℚ) (ET ST c q : ℤ) (r : ℕ) : ℚ :=
  if ST < c + q then 0
  else if r = 0 then kf * (((ET - c) * (ST - c - q) : ℤ) : ℚ)
  else if r = 1 then kb * (c : ℚ)
  else kcat * (c : ℚ)

/-- The stoichiometric vectors set by the `ekinetics_cme` constructor:
`nu[f] = {1, 0}`, `nu[b] = {-1, 0}`, `nu[cat] = {-1, 1}` on `(C, P)`. -/
def ekNu (r : ℕ) : ℤ × ℤ :=
  if r = 0 then (1, 0) else if r = 1 then (-1, 0) else (-1, 1)

/-- `cme::out_of_bounds` on the two-species lattice `n_max = {ET+1, ST+1}`. -/
def ekOOB (ET ST c q : ℤ) : Bool :=
  c < 0 || ET < c || q < 0 || ST < q

/-- `cme::get_index` on the two-species lattice:
`(0*(ET+1) + c)*(ST+1) + q`.  It is only applied to in-bounds (hence
non-negative) states, where the `ℤ → ℕ` truncation is exact. -/
def ekIndex (ST c q : ℤ) : ℕ := (c * (ST + 1) + q).toNat

/-- The gain term of the derivative lambda of `cme::step` for channel `r`
at lattice state `x`:
`if (!out_of_bounds(x - nu[r])) dp[pop_i] += a(x - nu[r], r) * p[get_index(x - nu[r])]`. -/
def ekGain (kf kb kcat : ℚ) (ET ST : ℕ) (pr : ℕ → ℚ) (r : ℕ)
    (x : ℤ × ℤ) : ℚ :=
  if ekOOB ET ST (x - ekNu r).1 (x - ekNu r).2 then 0
  else ekA kf kb kcat ET ST (x - ekNu r).1 (x - ekNu r).2 r
    * pr (ekIndex ST (x - ekNu r).1 (x - ekNu r).2)

/-- The loss term `a(x, r) * p[...]` read through the indexer. -/
def ekLoss (kf kb kcat : ℚ) (ET ST : ℕ) (pr : ℕ → ℚ) (r : ℕ)
    (x : ℤ × ℤ) : ℚ :=
  ekA kf kb kcat ET ST x.1 x.2 r * pr (ekIndex ST x.1 x.2)

/-- The CME derivative vector of the enzyme-kinetics model: the body of the
derivative lambda of `cme::step` at flat index `i`, whose odometer state
`x` equals `(i / (ST+1), i % (ST+1))`; the loss reads `p[pop_i]` directly. -/
def ekDeriv (kf kb kcat : ℚ) (ET ST : ℕ) (pr : ℕ → ℚ) (i : ℕ) : ℚ :=
  ∑ r in Finset.range 3,
    (ekGain kf kb kcat ET ST pr r
        (((i / (ST + 1) : ℕ) : ℤ), ((i % (ST + 1) : ℕ) : ℤ))
      - ekA kf kb kcat ET ST ((i / (ST + 1) : ℕ) : ℤ) ((i % (ST + 1) : ℕ) : ℤ) r
          * pr i)

theorem sum_range_mul_split (A B : ℕ) (f : ℕ → ℚ) :
    ∑ i in Finset.range (A * B), f i
      = ∑ a in Finset.range A, ∑ b in Finset.range B, f (a * B + b) := by
  induction A with
  | zero => simp
  | succ A ih =>
    rw [Nat.succ_mul, Finset.sum_range_add, ih, Finset.sum_range_succ]

theorem sum_range_cast (A : ℕ) (g : ℤ → ℚ) :
    ∑ a in Finset.range (A + 1), g (a : ℤ)
      = ∑ c in Finset.Icc (0 : ℤ) (A : ℤ), g c := by
  refine Finset.sum_nbij' (fun a : ℕ => (a : ℤ)) (fun c : ℤ => c.toNat)
    ?_ ?_ ?_ ?_ ?_
  · intro a ha
    rw [Finset.mem_range] at ha
    rw [Finset.mem_Icc]
    dsimp only
    omega
  · intro c hc
    rw [Finset.mem_Icc] at hc
    rw [Finset.mem_range]
    dsimp only
    omega
  · intro a _
    exact Int.toNat_natCast a
  · intro c hc
    rw [Finset.mem_Icc] at hc
    dsimp only
    omega
  · intro a _
    rfl

theorem sum_ekDeriv_eq_lattice (kf kb kcat : ℚ) (ET ST : ℕ) (pr : ℕ → ℚ) :
    ∑ i in Finset.range ((ET + 1) * (ST + 1)), ekDeriv kf kb kcat ET ST pr i
      = ∑ x in Finset.Icc (0 : ℤ) (ET : ℤ) ×ˢ Finset.Icc (0 : ℤ) (ST : ℤ),
          ∑ r in Finset.range 3,
            (ekGain kf kb kcat ET ST pr r x - ekLoss kf kb kcat ET ST pr r x) := by
  rw [sum_range_mul_split, Finset.sum_product, ← sum_range_cast ET]
  refine Finset.sum_congr rfl fun a ha => ?_
  dsimp only
  rw [← sum_range_cast ST]
  refine Finset.sum_congr rfl fun b hb => ?_
  rw [Finset.mem_range] at hb
  have hB : 0 < ST + 1 := Nat.succ_pos ST
  have hdiv : (a * (ST + 1) + b) / (ST + 1) = a := by
    rw [add_comm (a * (ST + 1)) b, mul_comm a (ST + 1),
      Nat.add_mul_div_left _ _ hB, Nat.div_eq_of_lt hb, Nat.zero_add]
  have hmod : (a * (ST + 1) + b) % (ST + 1) = b := by
    rw [add_comm (a * (ST + 1)) b, mul_comm a (ST + 1),
      Nat.add_mul_mod_self_left, Nat.mod_eq_of_lt hb]
  have hidx : ekIndex (ST : ℤ) (a : ℤ) (b : ℤ) = a * (ST + 1) + b := by
    unfold ekIndex
    rw [show ((a : ℤ) * ((ST : ℤ) + 1) + (b : ℤ))
        = ((a * (ST + 1) + b : ℕ) : ℤ) by push_cast; ring]
    exact Int.toNat_natCast _
  simp only [ekDeriv, ekLoss, hdiv, hmod, hidx]

theorem ekA_vanishes_on_outflow (kf kb kcat : ℚ) (ET ST : ℕ)
    (r : ℕ) (hr : r < 3) (c q : ℤ)
    (hc : 0 ≤ c ∧ c ≤ (ET : ℤ)) (hq : 0 ≤ q ∧ q ≤ (ST : ℤ))
    (hout : ¬((0 ≤ c + (ekNu r).1 ∧ c + (ekNu r).1 ≤ (ET : ℤ)) ∧
              (0 ≤ q + (ekNu r).2 ∧ q + (ekNu r).2 ≤ (ST : ℤ)))) :
    ekA kf kb kcat ET ST c q r = 0 := by
  interval_cases r
  · norm_num [ekNu] at hout
    have hcET : c = (ET : ℤ) := by omega
    unfold ekA
    split
    · rfl
    · norm_num [hcET]
  · norm_num [ekNu] at hout
    have hc0 : c = 0 := by omega
    unfold ekA
    split
    · rfl
    · norm_num [hc0]
  · norm_num [ekNu] at hout
    rcases (by omega : c = 0 ∨ (ST : ℤ) < c + q) with hc0 | hlt
    · unfold ekA
      split
      · rfl
      · norm_num [hc0]
    · unfold ekA
      rw [if_pos hlt]

theorem sum_shift_filter (L : Finset (ℤ × ℤ)) (dlt : ℤ × ℤ) (G : ℤ × ℤ → ℚ) :
    ∑ x in L.filter (fun x => x - dlt ∈ L), G (x - dlt)
      = ∑ y in L.filter (fun y => y + dlt ∈ L), G y := by
  refine Finset.sum_nbij' (fun x => x - dlt) (fun y => y + dlt) ?_ ?_ ?_ ?_ ?_
  · intro x hx
    rw [Finset.mem_filter] at hx ⊢
    dsimp only
    refine ⟨hx.2, ?_⟩
    rw [sub_add_cancel]
    exact hx.1
  · intro y hy
    rw [Finset.mem_filter] at hy ⊢
    dsimp only
    refine ⟨hy.2, ?_⟩
    rw [add_sub_cancel_right]
    exact hy.1
  · intro x _
    exact sub_add_cancel x dlt
  · intro y _
    exact add_sub_cancel_right y dlt
  · intro x _
    rfl

theorem ek_gain_sum_eq_loss_sum (kf kb kcat : ℚ) (ET ST : ℕ) (pr : ℕ → ℚ)
    (r : ℕ) (hr : r < 3) :
    ∑ x in Finset.Icc (0 : ℤ) (ET : ℤ) ×ˢ Finset.Icc (0 : ℤ) (ST : ℤ),
      ekGain kf kb kcat ET ST pr r x
      = ∑ x in Finset.Icc (0 : ℤ) (ET : ℤ) ×ˢ Finset.Icc (0 : ℤ) (ST : ℤ),
          ekLoss kf kb kcat ET ST pr r x := by
  set L := Finset.Icc (0 : ℤ) (ET : ℤ) ×ˢ Finset.Icc (0 : ℤ) (ST : ℤ) with hL
  have hmem : ∀ z : ℤ × ℤ, z ∈ L ↔ (ekOOB ET ST z.1 z.2 = false) := by
    intro z
    rw [hL, Finset.mem_product, Finset.mem_Icc, Finset.mem_Icc]
    simp only [ekOOB, Bool.or_eq_false_iff, decide_eq_false_iff_not, not_lt]
    constructor
    · intro h
      exact ⟨⟨⟨h.1.1, h.1.2⟩, h.2.1⟩, h.2.2⟩
    · intro h
      exact ⟨⟨h.1.1.1, h.1.1.2⟩, h.1.2, h.2⟩
  have hGainIf : ∀ x : ℤ × ℤ,
      ekGain kf kb kcat ET ST pr r x
        = if x - ekNu r ∈ L then ekLoss kf kb kcat ET ST pr r (x - ekNu r)
          else 0 := by
    intro x
    unfold ekGain ekLoss
    by_cases hin : x - ekNu r ∈ L
    · rw [if_pos hin, (hmem _).mp hin]
      simp
    · rw [if_neg hin]
      have htrue : ekOOB ET ST (x - ekNu r).1 (x - ekNu r).2 = true := by
        cases hcases : ekOOB ET ST (x - ekNu r).1 (x - ekNu r).2
        · exact absurd ((hmem _).mpr hcases) hin
        · rfl
      rw [htrue]
      simp
  calc ∑ x in L, ekGain kf kb kcat ET ST pr r x
      = ∑ x in L, (if x - ekNu r ∈ L
          then ekLoss kf kb kcat ET ST pr r (x - ekNu r) else 0) :=
        Finset.sum_congr rfl fun x _ => hGainIf x
  _ = ∑ x in L.filter (fun x => x - ekNu r ∈ L),
        ekLoss kf kb kcat ET ST pr r (x - ekNu r) :=
        (Finset.sum_filter _ _).symm
  _ = ∑ y in L.filter (fun y => y + ekNu r ∈ L),
        ekLoss kf kb kcat ET ST pr r y :=
        sum_shift_filter L (ekNu r) _
  _ = ∑ y in L, (if y + ekNu r ∈ L
        then ekLoss kf kb kcat ET ST pr r y else 0) :=
        Finset.sum_filter _ _
  _ = ∑ y in L, ekLoss kf kb kcat ET ST pr r y := by
        refine Finset.sum_congr rfl fun y hy => ?_
        by_cases hin : y + ekNu r ∈ L
        · rw [if_pos hin]
        · rw [if_neg hin]
          have hy' := hy
          rw [hL, Finset.mem_product, Finset.mem_Icc, Finset.mem_Icc] at hy'
          rw [hL, Finset.mem_product, Finset.mem_Icc, Finset.mem_Icc,
            Prod.fst_add, Prod.snd_add] at hin
          unfold ekLoss
          rw [ekA_vanishes_on_outflow kf kb kcat ET ST r hr y.1 y.2
            hy'.1 hy'.2 hin, zero_mul]

theorem sum_ekDeriv_zero (kf kb kcat : ℚ) (ET ST : ℕ) (pr : ℕ → ℚ) :
    ∑ i in Finset.range ((ET + 1) * (ST + 1)),
      ekDeriv kf kb kcat ET ST pr i = 0 := by
  rw [sum_ekDeriv_eq_lattice, Finset.sum_comm]
  refine Finset.sum_eq_zero fun r hr => ?_
  rw [Finset.sum_sub_distrib,
    ek_gain_sum_eq_loss_sum kf kb kcat ET ST pr r (Finset.mem_range.mp hr),
    sub_self]

/-- **C6.** At construction `p[0]` (the all-zero population state) equals 1
and all other entries are 0, so `Σ p = 1`; and for the enzyme-kinetics CME
with the spec-modelled Euler integrator, `Σ p = 1` is preserved *exactly*
by every `step` call, for every step size `dt` (in exact arithmetic the
derivative vector sums to zero, because every propensity vanishes on the
states whose successor under its channel would leave the lattice). -/
theorem claim_C6_probability_conservation (kf kb kcat : ℚ) (ET ST : ℕ) :
    (cmeInitP 0 = 1 ∧ (∀ i, i ≠ 0 → cmeInitP i = 0) ∧
      ∑ i in Finset.range ((ET + 1) * (ST + 1)), cmeInitP i = 1) ∧
    ∀ (s : CmeSt) (dt : ℚ),
      ∑ i in Finset.range ((ET + 1) * (ST + 1)), s.p i = 1 →
      ∑ i in Finset.range ((ET + 1) * (ST + 1)),
        (cmeStep (ekDeriv kf kb kcat ET ST) s dt).p i = 1 := by
  constructor
  · refine ⟨rfl, fun i hi => by simp [cmeInitP, hi], ?_⟩
    have h0 : (0 : ℕ) ∈ Finset.range ((ET + 1) * (ST + 1)) := by
      rw [Finset.mem_range]
      positivity
    rw [show (cmeInitP : ℕ → ℚ) = fun i => if i = 0 then 1 else 0 from rfl,
      Finset.sum_ite_eq' (Finset.range ((ET + 1) * (ST + 1))) 0 (fun _ => (1 : ℚ)),
      if_pos h0]
  · intro s dt hsum
    have hD := sum_ekDeriv_zero kf kb kcat ET ST s.p
    simp only [cmeStep, eulerInteg]
    rw [Finset.sum_add_distrib, Finset.sum_add_distrib, ← Finset.mul_sum,
      ← Finset.sum_mul, hD, hsum]
    ring

/-- Witness for C6 at `kappa = (1,1,1)`, `ET = ST = 1` (a 4-state lattice),
the constructor state and `dt = 1/2`. -/
theorem claim_C6_witness :
    (∑ i in Finset.range ((1 + 1) * (1 + 1)), cmeInitP i = 1) ∧
    ∑ i in Finset.range ((1 + 1) * (1 + 1)),
      (cmeStep (ekDeriv 1 1 1 1 1) ⟨cmeInitP, 0⟩ (1/2)).p i = 1 :=
  ⟨(claim_C6_probability_conservation 1 1 1 1 1).1.2.2,
   (claim_C6_probability_conservation 1 1 1 1 1).2 ⟨cmeInitP, 0⟩ (1/2)
     (by norm_num [cmeInitP, Finset.sum_range_succ])⟩

/-! ## Moments and standard deviation (`src/cme.hpp`, second revision:
`calc_moments`, `mean`, `msq`, `sd`, `nth_moment`) -/

/-- The raw `n`-th moment of species `s`: the full-lattice sweep
`Σ_i p[i] · (x_s)^n`.  `calc_moments` computes it for all orders up to
`moments_max_order = 3` at once (via the running power `xn *= x[j]`), and
`nth_moment` computes the same sum directly for higher orders; the odometer
state at flat index `i` equals `get_pop i`. -/
def rawMoment (nmax : List ℕ) (pr : ℕ → ℚ) (s n : ℕ) : ℚ :=
  ∑ i in Finset.range nmax.prod,
    pr i * (((get_pop nmax i).getD s 0 : ℕ) : ℚ) ^ n

/-- `cme::mean`: the cached first moment `m[s][1]`. -/
def cmeMean (nmax : List ℕ) (pr : ℕ → ℚ) (s : ℕ) : ℚ := rawMoment nmax pr s 1

/-- `cme::msq`: the cached second moment `m[s][2]`. -/
def cmeMsq (nmax : List ℕ) (pr : ℕ → ℚ) (s : ℕ) : ℚ := rawMoment nmax pr s 2

/-- `cme::nth_moment`: for `n <= moments_max_order = 3` the cached
`m[s][n]`, otherwise a dedicated full-lattice summation; both branches
compute the raw moment sum. -/
def nth_moment (nmax : List ℕ) (pr : ℕ → ℚ) (s n : ℕ) : ℚ :=
  if n ≤ 3 then rawMoment nmax pr s n else rawMoment nmax pr s n

/-- `cme::sd`: `arg = m[s][2] - m[s][1]*m[s][1]; return arg > 0 ? sqrt(arg) : 0`.
The square root is a real operation, hence the `ℝ`-valued embedding. -/
noncomputable def sd (nmax : List ℕ) (pr : ℕ → ℚ) (s : ℕ) : ℝ :=
  if 0 < cmeMsq nmax pr s - cmeMean nmax pr s * cmeMean nmax pr s then
    Real.sqrt ((cmeMsq nmax pr s - cmeMean nmax pr s * cmeMean nmax pr s : ℚ))
  else 0

/-- **C8.** `sd(s)` is the square root of the radicand
`msq(s) - mean(s)^2` clamped below at zero: whenever
`nth_moment(s,2) - mean(s)^2` is non-negative, `sd(s)^2` equals it exactly,
and whenever that difference is negative, `sd(s) = 0` (a real number, not
NaN). -/
theorem claim_C8_sd_clamped_radicand (nmax : List ℕ) (pr : ℕ → ℚ) (s : ℕ) :
    (0 ≤ nth_moment nmax pr s 2 - cmeMean nmax pr s ^ 2 →
      sd nmax pr s ^ 2
        = ((nth_moment nmax pr s 2 - cmeMean nmax pr s ^ 2 : ℚ) : ℝ)) ∧
    (nth_moment nmax pr s 2 - cmeMean nmax pr s ^ 2 < 0 →
      sd nmax pr s = 0) := by
  have hm : nth_moment nmax pr s 2 = cmeMsq nmax pr s := by
    simp [nth_moment, cmeMsq]
  have hsq : cmeMean nmax pr s ^ 2 = cmeMean nmax pr s * cmeMean nmax pr s :=
    sq (cmeMean nmax pr s) ▸ by ring
  constructor
  · intro h
    rw [hm, hsq] at h ⊢
    unfold sd
    rcases lt_or_eq_of_le h with hpos | heq
    · rw [if_pos (by linarith)]
      rw [Real.sq_sqrt (by positivity)]
    · rw [if_neg (by rw [← heq]; exact lt_irrefl 0), ← heq]
      norm_num
  · intro h
    rw [hm, hsq] at h
    unfold sd
    rw [if_neg (by linarith)]

/-- Witness for C8 on the lattice `n_max = [2]` with the uniform
distribution: the radicand is `1/4 ≥ 0` and `sd^2` recovers it. -/
theorem claim_C8_witness :
    (0 : ℚ) ≤ nth_moment [2] (fun _ => 1/2) 0 2
        - cmeMean [2] (fun _ => 1/2) 0 ^ 2 ∧
    sd [2] (fun _ => 1/2) 0 ^ 2
      = ((nth_moment [2] (fun _ => 1/2) 0 2
          - cmeMean [2] (fun _ => 1/2) 0 ^ 2 : ℚ) : ℝ) :=
  ⟨by norm_num [nth_moment, rawMoment, cmeMean, get_pop, popAux,
      Finset.sum_range_succ],
   (claim_C8_sd_clamped_radicand [2] (fun _ => 1/2) 0).1
     (by norm_num [nth_moment, rawMoment, cmeMean, get_pop, popAux,
       Finset.sum_range_succ])⟩

/-! ## The two enzyme-kinetics propensity adapters (claim C10)

`ssek_gillespie::a` (SSA side, `src/include/sck/gillespie.hpp`) and
`ekinetics_cme::a` (CME side, `src/cme.hpp`), with C++ exceptions modelled
by `Except`. -/

inductive AdapterErr
  | domainError
  | outOfRange
deriving DecidableEq

/-- `ssek_gillespie::a`: throws `std::domain_error` whenever
`x[C] > ET || x[C] + x[P] > ST`, before reading the channel index; an
unknown channel throws `std::out_of_range`. -/
def ssek_gillespie_a (kappa : Fin 3 → ℚ) (ET ST xC xP : ℤ) (i : ℕ) :
    Except AdapterErr ℚ :=
  if ET < xC ∨ ST < xC + xP then .error .domainError
  else if i = 0 then .ok (kappa 0 * (((ET - xC) * (ST - xC - xP) : ℤ) : ℚ))
  else if i = 1 then .ok (kappa 1 * (xC : ℚ))
  else if i = 2 then .ok (kappa 2 * (xC : ℚ))
  else .error .outOfRange

/-- `ekinetics_cme::a`: returns 0 whenever `y[C] + y[P] > ST` (for any
channel index, before the `switch`), performs no check of `y[C]` against
`ET`, and throws only `std::out_of_range` for an unknown channel. -/
def ekinetics_cme_a (kappa : Fin 3 → ℚ) (ET ST yC yP : ℤ) (i : ℕ) :
    Except AdapterErr ℚ :=
  if ST < yC + yP then .ok 0
  else if i = 0 then .ok (kappa 0 * (((ET - yC) * (ST - yC - yP) : ℤ) : ℚ))
  else if i = 1 then .ok (kappa 1 * (yC : ℚ))
  else if i = 2 then .ok (kappa 2 * (yC : ℚ))
  else .error .outOfRange

/-- **C10.** On conservation-violating states the two adapters disagree:
the SSA adapter raises a domain error whenever `x[C] > ET` or
`x[C] + x[P] > ST`, for every channel index, while the CME adapter returns
propensity 0 for every state with `y[C] + y[P] > ST` and every channel
index, and never raises a domain error at all (in particular it performs no
check of `y[C]` against `ET`). -/
theorem claim_C10_adapter_disagreement (kappa : Fin 3 → ℚ) (ET ST : ℤ) :
    (∀ xC xP : ℤ, (ET < xC ∨ ST < xC + xP) → ∀ i : ℕ,
      ssek_gillespie_a kappa ET ST xC xP i = .error .domainError) ∧
    (∀ yC yP : ℤ, ST < yC + yP → ∀ i : ℕ,
      ekinetics_cme_a kappa ET ST yC yP i = .ok 0) ∧
    (∀ (yC yP : ℤ) (i : ℕ),
      ekinetics_cme_a kappa ET ST yC yP i ≠ .error .domainError) := by
  refine ⟨?_, ?_, ?_⟩
  · intro xC xP h i
    unfold ssek_gillespie_a
    rw [if_pos h]
  · intro yC yP h i
    unfold ekinetics_cme_a
    rw [if_pos h]
  · intro yC yP i
    unfold ekinetics_cme_a
    split
    · simp
    · split
      · simp
      · split
        · simp
        · split
          · simp
          · simp

/-- Constant rate constants used in the C10 witness. -/
def wKappa : Fin 3 → ℚ := fun _ => 1

/-- Witness for C10 at `ET = 2`, `ST = 10`: the state `(C, P) = (3, 0)`
violates `C ≤ ET`, so the SSA adapter raises a domain error while the CME
adapter does not; and the state `(11, 0)` with `C + P > ST` yields
propensity 0 from the CME adapter even at an out-of-range channel index. -/
theorem claim_C10_witness :
    ((2 : ℤ) < 3 ∨ (10 : ℤ) < 3 + 0) ∧
    ssek_gillespie_a wKappa 2 10 3 0 0 = .error .domainError ∧
    ekinetics_cme_a wKappa 2 10 11 0 5 = .ok 0 ∧
    ekinetics_cme_a wKappa 2 10 3 0 1 ≠ .error .domainError :=
  ⟨Or.inl (by norm_num),
   (claim_C10_adapter_disagreement wKappa 2 10).1 3 0 (Or.inl (by norm_num)) 0,
   (claim_C10_adapter_disagreement wKappa 2 10).2.1 11 0 (by norm_num) 5,
   (claim_C10_adapter_disagreement wKappa 2 10).2.2 3 0 1⟩
